import Mathlib

/-!
Verification of the amendment segmenter of `parse_amendments.py` (ep-parser).

The development shallowly embeds phase 3 of the source (the state machine
`parse_amendments` and its helpers `flush_amendment`, `start_amendment`,
`add_table_text`, together with the line accessors and the regular
expressions it consults).  Coordinates and font sizes are modelled as
integers: the source stores floats but only ever compares them against
integer thresholds, on which the order structure is all that matters.
-/

namespace EPParser

/-! ## Constants (from the source header) -/

def COLUMN_SPLIT_X : Int := 244
def AMBIGUOUS_LOW : Int := 220
def AMBIGUOUS_HIGH : Int := 300

/-! ## Data structures -/

structure Span where
  x : Int
  y : Int
  text : String
  bold : Bool
  size : Int
  page_num : Nat
deriving DecidableEq, Repr

structure Line where
  y : Int
  page_num : Nat
  spans : List Span
deriving DecidableEq, Repr

/-- Output record.  The source field `section` is a Lean keyword and is
rendered here as `sectionRef`. -/
structure Amendment where
  id : String
  authors : String := ""
  sectionRef : String := ""
  content : String := ""
  amendment : String := ""
  warnings : List String := []
deriving DecidableEq, Repr

/-! ## String primitives

Python's `str.strip`, `str.lower`, `str.endswith` and `sep.join` are modelled
on the character list underlying the string, so that every definition reduces
by structural recursion. -/

/-- Python `str.strip()` (no argument): drop whitespace from both ends. -/
def pyStrip (s : String) : String :=
  ⟨((s.data.dropWhile Char.isWhitespace).reverse.dropWhile Char.isWhitespace).reverse⟩

/-- Python `str.lower()`. -/
def pyLower (s : String) : String :=
  ⟨s.data.map Char.toLower⟩

/-- Python `str.endswith(post)`. -/
def strEndsWith (s post : String) : Bool :=
  post.data.isSuffixOf s.data

/-- Python `sep.join(parts)`. -/
def joinSep (sep : String) : List String → String
  | [] => ""
  | [a] => a
  | a :: rest => a ++ sep ++ joinSep sep rest

/-! ## Line accessors -/

def line_text (l : Line) : String :=
  pyStrip (joinSep " " (l.spans.map Span.text))

def line_is_bold (l : Line) : Bool :=
  l.spans.all Span.bold

/-- `max(s.size for s in line.spans)`.  The source raises on an empty span
list, but every call site is guarded by `line_text l ≠ ""`, which forces the
span list to be non-empty; the seed `0` only differs from the true maximum
when every size is negative, and the sole consumers compare the result
against `11`, on which the two agree. -/
def line_size (l : Line) : Int :=
  l.spans.foldl (fun a s => max a s.size) 0

/-! ## Regular expressions, modelled as executable character scans -/

/-- Strip `pre` (given lowercase) from the head of `s`, comparing
case-insensitively; `none` when `pre` is not a prefix. -/
def dropPrefixCI : List Char → List Char → Option (List Char)
  | [], rest => some rest
  | _ :: _, [] => none
  | p :: ps, c :: cs => if c.toLower = p then dropPrefixCI ps cs else none

def digitsVal (cs : List Char) : Nat :=
  cs.foldl (fun a c => a * 10 + (c.toNat - 48)) 0

/-- Model of `AMENDMENT_RE = re.compile(r'^Amendment\s+(\d+)$', re.IGNORECASE)`
used via `re.match` on the (stripped) full line text: the word "amendment" in
any letter case, one or more whitespace characters, one or more digits, and
nothing else.  Returns the captured number. -/
def amendment_header_num (s : String) : Option Nat :=
  match dropPrefixCI "amendment".toList s.toList with
  | none => none
  | some rest =>
      let ds := rest.dropWhile Char.isWhitespace
      if rest.takeWhile Char.isWhitespace = [] then none
      else if ds = [] then none
      else if ds.all Char.isDigit then some (digitsVal ds) else none

/-- Model of `LANGUAGE_MARKER_RE = re.compile(r'^Or\.\s+[a-z]{2}$', re.IGNORECASE)`. -/
def is_language_marker (s : String) : Bool :=
  match dropPrefixCI "or.".toList s.toList with
  | none => false
  | some rest =>
      let ds := rest.dropWhile Char.isWhitespace
      rest.takeWhile Char.isWhitespace ≠ [] && ds.length = 2 &&
        ds.all (fun c => 'a' ≤ c.toLower && c.toLower ≤ 'z')

/-- Model of `TABLE_COLUMN_LABEL_RE` (full match, case-insensitive). -/
def is_table_column_label (s : String) : Bool :=
  pyLower s = "amendment" || pyLower s = "proposal for rejection" ||
    pyLower s = "text proposed by the commission"

/-- `needle` occurs contiguously in `hay` (Python `needle in hay`). -/
def charsContain : List Char → List Char → Bool
  | needle, [] => needle.isEmpty
  | needle, c :: cs => needle.isPrefixOf (c :: cs) || charsContain needle cs

def has_substr (hay needle : String) : Bool :=
  charsContain needle.toList hay.toList

/-! Model of `DOC_CODE_RE = PE\s*\d{3}[\.,]\d{3}|AM\\\d+|[A-Z]+-AM-\d`
(IGNORECASE), used via `re.search`. -/

def ascii_letter (c : Char) : Bool := 'a' ≤ c.toLower && c.toLower ≤ 'z'

def doc_code_alt1 (cs : List Char) : Bool :=
  match dropPrefixCI "pe".toList cs with
  | none => false
  | some r =>
      match r.dropWhile Char.isWhitespace with
      | d1 :: d2 :: d3 :: p :: e1 :: e2 :: e3 :: _ =>
          d1.isDigit && d2.isDigit && d3.isDigit && (p = '.' || p = ',') &&
          e1.isDigit && e2.isDigit && e3.isDigit
      | _ => false

def doc_code_alt2 (cs : List Char) : Bool :=
  match dropPrefixCI "am\\".toList cs with
  | some (c :: _) => c.isDigit
  | _ => false

def dash_am_dash_digit (cs : List Char) : Bool :=
  match cs with
  | '-' :: a :: m :: '-' :: d :: _ => a.toLower = 'a' && m.toLower = 'm' && d.isDigit
  | _ => false

def doc_code_alt3 : List Char → Bool
  | [] => false
  | c :: rest => ascii_letter c && (dash_am_dash_digit rest || doc_code_alt3 rest)

def search_from (p : List Char → Bool) : List Char → Bool
  | [] => p []
  | c :: cs => p (c :: cs) || search_from p cs

def doc_code_search (s : String) : Bool :=
  search_from (fun cs => doc_code_alt1 cs || doc_code_alt2 cs || doc_code_alt3 cs) s.toList

/-! ## The state machine -/

inductive SegState
  | PREAMBLE
  | AUTHORS
  | TABLE_BODY
deriving DecidableEq, Repr

structure ParserSt where
  amendments : List Amendment := []
  state : SegState := SegState.PREAMBLE
  current : Option Amendment := none
  prev_id_num : Nat := 0
  left_lines : List String := []
  right_lines : List String := []
  section_parts : List String := []
  author_lines : List String := []
  has_language_marker : Bool := false
deriving DecidableEq, Repr

/-- One step of the author-joining loop in `flush_amendment`: continuation
after a trailing comma joins with a space, distinct entries with "; ". -/
def join_authors_step (acc part : String) : String :=
  if acc = "" then part
  else if strEndsWith acc "," then acc ++ " " ++ part
  else acc ++ "; " ++ part

def join_authors (parts : List String) : String :=
  parts.foldl join_authors_step ""

/-- The body of `flush_amendment` that fills the joined fields and evaluates
the flush-time warnings, in source order. -/
def finalize_amendment (a : Amendment) (author_lines section_parts left_lines right_lines : List String)
    (has_language_marker : Bool) : Amendment :=
  let authors := join_authors author_lines
  let sectionRef := joinSep " / " section_parts
  let content := pyStrip (joinSep "\n" left_lines)
  let amd := pyStrip (joinSep "\n" right_lines)
  let w := a.warnings
  let w := if authors = "" then w ++ ["missing_author"] else w
  let w := if content = "" && amd = "" then w ++ ["both_columns_empty"] else w
  let w := if content ≠ "" && content.length < 3 && pyLower content ≠ "deleted" then
      w ++ ["suspiciously_short_column"] else w
  let w := if amd ≠ "" && amd.length < 3 && pyLower amd ≠ "deleted" then
      w ++ ["suspiciously_short_column"] else w
  let w := if ¬ has_language_marker then w ++ ["no_language_marker"] else w
  let w := if doc_code_search content || doc_code_search amd then w ++ ["footer_text_leaked"] else w
  { a with
    authors := authors,
    sectionRef := sectionRef,
    content := content,
    amendment := amd,
    warnings := w }

def flush_amendment (st : ParserSt) : ParserSt :=
  match st.current with
  | none => st
  | some a =>
      let fin := finalize_amendment a st.author_lines st.section_parts st.left_lines
        st.right_lines st.has_language_marker
      { st with
        amendments := st.amendments ++ [fin],
        current := none,
        left_lines := [],
        right_lines := [],
        section_parts := [],
        author_lines := [],
        has_language_marker := false }

def start_amendment (st : ParserSt) (id_str : String) (id_num : Nat) : ParserSt :=
  let st := flush_amendment st
  let st := { st with has_language_marker := false }
  let w : List String :=
    if id_num ≠ st.prev_id_num + 1 && st.prev_id_num ≠ 0 then
      ["non_sequential_id: expected " ++ toString (st.prev_id_num + 1) ++
        ", got " ++ toString id_num]
    else []
  { st with current := some { id := id_str, warnings := w }, prev_id_num := id_num }

/-- The single loop of `add_table_text`, mirrored as structural recursion:
ambiguous-band x values, left-column texts and right-column texts, each in
span order. -/
def split_spans : List Span → List Int × List String × List String
  | [] => ([], [], [])
  | s :: rest =>
      let prev := split_spans rest
      let amb := if AMBIGUOUS_LOW ≤ s.x && s.x < AMBIGUOUS_HIGH then s.x :: prev.1 else prev.1
      if s.x < COLUMN_SPLIT_X then (amb, s.text :: prev.2.1, prev.2.2)
      else (amb, prev.2.1, s.text :: prev.2.2)

/-- The warning string built from `ambiguous_xs` (`round(span.x)` is the
identity on the integer model). -/
def ambiguous_warning (xs : List Int) : String :=
  "ambiguous_column_split: " ++ toString xs.length ++
    " spans near boundary at x≈" ++ joinSep ", " (xs.map toString)

/-- `add_table_text`.  The source writes `current.warnings.append(...)`, which
presumes a current amendment; `Option.map` renders the (unreachable, see the
C10 theorem) missing case as a no-op. -/
def add_table_text (st : ParserSt) (l : Line) : ParserSt :=
  let parts := split_spans l.spans
  let ambiguous_xs := parts.1
  let left_parts := parts.2.1
  let right_parts := parts.2.2
  let st :=
    if ambiguous_xs ≠ [] then
      { st with current := st.current.map (fun a =>
          { a with warnings := a.warnings ++ [ambiguous_warning ambiguous_xs] }) }
    else st
  let st :=
    if left_parts ≠ [] then
      { st with left_lines := st.left_lines ++ [joinSep " " left_parts] }
    else st
  if right_parts ≠ [] then
    { st with right_lines := st.right_lines ++ [joinSep " " right_parts] }
  else st

def SECTION_KEYWORDS : List String :=
  ["Motion for a resolution", "Paragraph", "Recital", "Article", "Heading",
    "Title", "Annex", "Proposal"]

def has_section_keyword (text : String) : Bool :=
  SECTION_KEYWORDS.any (fun kw => has_substr text kw)

/-- The `state == "AUTHORS"` arm of the loop body. -/
def authors_step (st : ParserSt) (l : Line) (text : String) (bold : Bool) (size : Int) : ParserSt :=
  let right_spans := l.spans.filter (fun s => COLUMN_SPLIT_X ≤ s.x)
  if right_spans ≠ [] then
    let left_spans := l.spans.filter (fun s => s.x < COLUMN_SPLIT_X)
    let st := { st with state := SegState.TABLE_BODY }
    if left_spans = [] && ¬ is_table_column_label text then add_table_text st l else st
  else if has_substr (pyLower text) "on behalf of" then
    { st with author_lines := st.author_lines ++ [text] }
  else if bold && 11 ≤ size then
    if has_section_keyword text || st.section_parts ≠ [] then
      { st with section_parts := st.section_parts ++ [text] }
    else
      { st with author_lines := st.author_lines ++ [text] }
  else st

/-- The loop body after the amendment-header test has failed. -/
def step_rest (st : ParserSt) (l : Line) (text : String) (bold : Bool) (size : Int) : ParserSt :=
  if st.state = SegState.PREAMBLE then st
  else if is_language_marker text then
    { st with has_language_marker := true, state := SegState.PREAMBLE }
  else if st.state = SegState.AUTHORS then authors_step st l text bold size
  else add_table_text st l

/-- One iteration of the `for line in lines` loop of `parse_amendments`. -/
def step_line (st : ParserSt) (l : Line) : ParserSt :=
  let text := line_text l
  if text = "" then st
  else
    let bold := line_is_bold l
    let size := line_size l
    match amendment_header_num text with
    | some id_num =>
        if bold && 11 ≤ size then
          { start_amendment st text id_num with state := SegState.AUTHORS }
        else step_rest st l text bold size
    | none => step_rest st l text bold size

def parse_amendments (lines : List Line) : List Amendment :=
  (flush_amendment (lines.foldl step_line {})).amendments

/-- The header test of the loop: `AMENDMENT_RE.match(text) and bold and size >= 11`. -/
def is_header_line (l : Line) : Bool :=
  (amendment_header_num (line_text l)).isSome && line_is_bold l && 11 ≤ line_size l

/-! ## Structural lemmas about the machine -/

theorem amendment_header_num_empty : amendment_header_num "" = none := by decide

theorem line_text_ne_empty_of_isSome {l : Line}
    (h : (amendment_header_num (line_text l)).isSome = true) : line_text l ≠ "" := by
  intro he
  rw [he, amendment_header_num_empty] at h
  exact absurd h (by decide)

/-- A warning string appended while an amendment is still being accumulated is
never one of the four tags that `flush_amendment` appends exactly once. -/
def MidTag (w : String) : Prop :=
  w ≠ "missing_author" ∧ w ≠ "both_columns_empty" ∧
    w ≠ "no_language_marker" ∧ w ≠ "footer_text_leaked"

theorem midTag_of_long {w : String} (h : 24 ≤ w.length) : MidTag w := by
  refine ⟨?_, ?_, ?_, ?_⟩ <;> intro he <;> subst he <;> revert h <;> decide

/-- Across one line, the in-progress amendment record is either untouched or
extended by a single accumulation-time warning. -/
def CurrentEvolves (st st' : ParserSt) : Prop :=
  st'.current = st.current ∨
    ∃ a w, st.current = some a ∧
      st'.current = some { a with warnings := a.warnings ++ [w] } ∧ MidTag w

theorem add_table_text_amendments (st : ParserSt) (l : Line) :
    (add_table_text st l).amendments = st.amendments := by
  simp only [add_table_text]
  split_ifs <;> rfl

theorem add_table_text_state (st : ParserSt) (l : Line) :
    (add_table_text st l).state = st.state := by
  simp only [add_table_text]
  split_ifs <;> rfl

theorem add_table_text_author_lines (st : ParserSt) (l : Line) :
    (add_table_text st l).author_lines = st.author_lines := by
  simp only [add_table_text]
  split_ifs <;> rfl

theorem add_table_text_section_parts (st : ParserSt) (l : Line) :
    (add_table_text st l).section_parts = st.section_parts := by
  simp only [add_table_text]
  split_ifs <;> rfl

theorem add_table_text_lines (st : ParserSt) (l : Line) :
    (add_table_text st l).left_lines =
      st.left_lines ++
        (if (split_spans l.spans).2.1 = [] then []
          else [joinSep " " (split_spans l.spans).2.1]) ∧
    (add_table_text st l).right_lines =
      st.right_lines ++
        (if (split_spans l.spans).2.2 = [] then []
          else [joinSep " " (split_spans l.spans).2.2]) := by
  simp only [add_table_text]
  split_ifs <;> simp_all

theorem ambiguous_warning_midTag (xs : List Int) : MidTag (ambiguous_warning xs) := by
  apply midTag_of_long
  simp only [ambiguous_warning, String.length_append]
  have h24 : ("ambiguous_column_split: ").length = 24 := by decide
  omega

theorem add_table_text_current (st : ParserSt) (l : Line) :
    CurrentEvolves st (add_table_text st l) := by
  simp only [add_table_text]
  split_ifs with h1 h2 h3
  all_goals
    first
      | exact Or.inl rfl
      | (cases hc : st.current with
          | none => exact Or.inl (by simp [hc])
          | some a =>
              exact Or.inr ⟨a, ambiguous_warning (split_spans l.spans).1, hc,
                by simp [hc], ambiguous_warning_midTag _⟩)

theorem finalize_id (a : Amendment) (al sp ll rl : List String) (m : Bool) :
    (finalize_amendment a al sp ll rl m).id = a.id := rfl

theorem flush_amendment_shape (st : ParserSt) :
    (st.current = none ∧ flush_amendment st = st) ∨
    (∃ a, st.current = some a ∧
      (flush_amendment st).amendments =
        st.amendments ++ [finalize_amendment a st.author_lines st.section_parts
          st.left_lines st.right_lines st.has_language_marker] ∧
      (flush_amendment st).current = none ∧
      (flush_amendment st).prev_id_num = st.prev_id_num ∧
      (flush_amendment st).left_lines = [] ∧
      (flush_amendment st).right_lines = [] ∧
      (flush_amendment st).section_parts = [] ∧
      (flush_amendment st).author_lines = []) := by
  cases hc : st.current with
  | none => exact Or.inl ⟨rfl, by simp [flush_amendment, hc]⟩
  | some a => exact Or.inr ⟨a, rfl, by simp [flush_amendment, hc], by simp [flush_amendment, hc],
      by simp [flush_amendment, hc], by simp [flush_amendment, hc], by simp [flush_amendment, hc],
      by simp [flush_amendment, hc], by simp [flush_amendment, hc]⟩

theorem flush_amendment_prev (st : ParserSt) :
    (flush_amendment st).prev_id_num = st.prev_id_num := by
  cases hc : st.current <;> simp [flush_amendment, hc]

theorem non_seq_warning_midTag (x y : String) :
    MidTag ("non_sequential_id: expected " ++ x ++ ", got " ++ y) := by
  apply midTag_of_long
  simp only [String.length_append]
  have h28 : ("non_sequential_id: expected ").length = 28 := by decide
  omega

theorem start_amendment_current (st : ParserSt) (id_str : String) (id_num : Nat) :
    ∃ ws, (start_amendment st id_str id_num).current = some { id := id_str, warnings := ws } ∧
      (ws = [] ∨ ∃ w, ws = [w] ∧ MidTag w) := by
  simp only [start_amendment]
  split_ifs with h
  · exact ⟨_, rfl, Or.inr ⟨_, rfl, non_seq_warning_midTag _ _⟩⟩
  · exact ⟨[], rfl, Or.inl rfl⟩

theorem start_amendment_amendments (st : ParserSt) (id_str : String) (id_num : Nat) :
    (start_amendment st id_str id_num).amendments = (flush_amendment st).amendments := rfl

/-- Reduction equation: an empty-text line is skipped. -/
theorem step_line_empty (st : ParserSt) (l : Line) (ht : line_text l = "") :
    step_line st l = st := by
  simp [step_line, ht]

/-- Reduction equation: a recognized header line runs `start_amendment` and
moves to `AUTHORS`. -/
theorem step_line_of_header (st : ParserSt) (l : Line) (idn : Nat)
    (hm : amendment_header_num (line_text l) = some idn)
    (hb : line_is_bold l = true) (hs : 11 ≤ line_size l) :
    step_line st l = { start_amendment st (line_text l) idn with state := SegState.AUTHORS } := by
  have ht : line_text l ≠ "" := line_text_ne_empty_of_isSome (by rw [hm]; rfl)
  simp [step_line, ht, hm, hb, hs]

/-- Reduction equation: a non-header line with text falls through to
`step_rest`. -/
theorem step_line_of_not_header (st : ParserSt) (l : Line)
    (ht : line_text l ≠ "") (hh : is_header_line l = false) :
    step_line st l = step_rest st l (line_text l) (line_is_bold l) (line_size l) := by
  cases hm : amendment_header_num (line_text l) with
  | none => simp [step_line, ht, hm]
  | some idn =>
      have hbs : (line_is_bold l && decide (11 ≤ line_size l)) = false := by
        have h2 := hh
        unfold is_header_line at h2
        rw [hm] at h2
        simpa using h2
      simp [step_line, ht, hm, hbs]

theorem authors_step_amendments (st : ParserSt) (l : Line) (text : String) (bold : Bool) (size : Int) :
    (authors_step st l text bold size).amendments = st.amendments := by
  simp only [authors_step]
  split_ifs <;> simp [add_table_text_amendments]

theorem authors_step_current (st : ParserSt) (l : Line) (text : String) (bold : Bool) (size : Int) :
    CurrentEvolves st (authors_step st l text bold size) := by
  simp only [authors_step]
  split_ifs <;> first
    | exact Or.inl rfl
    | exact add_table_text_current { st with state := SegState.TABLE_BODY } l

theorem step_rest_shape (st : ParserSt) (l : Line) (text : String) (bold : Bool) (size : Int) :
    (step_rest st l text bold size).amendments = st.amendments ∧
    CurrentEvolves st (step_rest st l text bold size) ∧
    ((step_rest st l text bold size).state ≠ SegState.PREAMBLE → st.state ≠ SegState.PREAMBLE) := by
  simp only [step_rest]
  split_ifs with h1 h2 h3
  · exact ⟨rfl, Or.inl rfl, fun h => h⟩
  · exact ⟨rfl, Or.inl rfl, by simp⟩
  · exact ⟨authors_step_amendments st l text bold size,
      authors_step_current st l text bold size, fun _ => by rw [h3]; simp⟩
  · exact ⟨add_table_text_amendments st l, add_table_text_current st l, fun _ => h1⟩

/-- Every processed line either leaves the output and the in-progress record
essentially untouched, or is an amendment-header line that flushes and starts
afresh. -/
theorem step_line_shape (st : ParserSt) (l : Line) :
    ((step_line st l).amendments = st.amendments ∧ CurrentEvolves st (step_line st l) ∧
      ((step_line st l).state ≠ SegState.PREAMBLE → st.state ≠ SegState.PREAMBLE)) ∨
    (is_header_line l = true ∧ (step_line st l).state = SegState.AUTHORS ∧
      (step_line st l).amendments = (flush_amendment st).amendments ∧
      ∃ ws, (step_line st l).current = some { id := line_text l, warnings := ws } ∧
        (ws = [] ∨ ∃ w, ws = [w] ∧ MidTag w)) := by
  by_cases ht : line_text l = ""
  · left
    rw [step_line_empty st l ht]
    exact ⟨rfl, Or.inl rfl, fun h => h⟩
  · by_cases hh : is_header_line l = true
    · right
      have hm : ∃ idn, amendment_header_num (line_text l) = some idn := by
        have h1 : (amendment_header_num (line_text l)).isSome = true := by
          unfold is_header_line at hh
          exact Bool.and_elim_left (Bool.and_elim_left hh)
        exact Option.isSome_iff_exists.mp h1
      obtain ⟨idn, hm⟩ := hm
      have hb : line_is_bold l = true := by
        unfold is_header_line at hh
        exact Bool.and_elim_right (Bool.and_elim_left hh)
      have hs : 11 ≤ line_size l := by
        unfold is_header_line at hh
        exact of_decide_eq_true (Bool.and_elim_right hh)
      rw [step_line_of_header st l idn hm hb hs]
      exact ⟨hh, rfl, start_amendment_amendments st (line_text l) idn,
        start_amendment_current st (line_text l) idn⟩
    · left
      rw [step_line_of_not_header st l ht (Bool.not_eq_true _ ▸ hh)]
      exact step_rest_shape st l (line_text l) (line_is_bold l) (line_size l)

theorem foldl_step_invariant (Inv : ParserSt → Prop)
    (hstep : ∀ st l, Inv st → Inv (step_line st l)) :
    ∀ (lines : List Line) (st : ParserSt), Inv st → Inv (lines.foldl step_line st)
  | [], _, h => h
  | l :: ls, st, h => foldl_step_invariant Inv hstep ls (step_line st l) (hstep st l h)

/-- Generic invariant engine: a property `Pc` that holds of every in-progress
record, survives accumulation-time warnings and holds of freshly started
records, turns into `Pa` at finalization, and then `Pa` holds of every emitted
record. -/
theorem parse_amendments_invariant (Pc Pa : Amendment → Prop)
    (hC : ∀ a w, Pc a → MidTag w → Pc { a with warnings := a.warnings ++ [w] })
    (hH : ∀ (l : Line) (ws : List String), is_header_line l = true →
      (ws = [] ∨ ∃ w, ws = [w] ∧ MidTag w) → Pc { id := line_text l, warnings := ws })
    (hF : ∀ a al sp ll rl m, Pc a → Pa (finalize_amendment a al sp ll rl m)) :
    ∀ (lines : List Line), ∀ a ∈ parse_amendments lines, Pa a := by
  intro lines a ha
  have hstep : ∀ st l,
      ((∀ b, st.current = some b → Pc b) ∧ (∀ b ∈ st.amendments, Pa b)) →
      ((∀ b, (step_line st l).current = some b → Pc b) ∧
        (∀ b ∈ (step_line st l).amendments, Pa b)) := by
    intro st l h
    obtain ⟨hcur, hout⟩ := h
    rcases step_line_shape st l with ⟨hamd, hevo, _⟩ | ⟨hhdr, _, hamd, ws, hcur', hws⟩
    · constructor
      · intro b hb
        rcases hevo with heq | ⟨a0, w, hc0, heq, hmid⟩
        · rw [heq] at hb
          exact hcur b hb
        · rw [heq] at hb
          injection hb with hb
          subst hb
          exact hC a0 w (hcur a0 hc0) hmid
      · intro b hb
        rw [hamd] at hb
        exact hout b hb
    · constructor
      · intro b hb
        rw [hcur'] at hb
        injection hb with hb
        subst hb
        exact hH l ws hhdr hws
      · intro b hb
        rw [hamd] at hb
        rcases flush_amendment_shape st with ⟨_, hfl⟩ | ⟨a0, hc0, hfa, _⟩
        · rw [hfl] at hb
          exact hout b hb
        · rw [hfa] at hb
          rcases List.mem_append.mp hb with hmem | hmem
          · exact hout b hmem
          · rw [List.mem_singleton] at hmem
            subst hmem
            exact hF a0 _ _ _ _ _ (hcur a0 hc0)
  have hinit : (∀ b, ({} : ParserSt).current = some b → Pc b) ∧
      (∀ b ∈ ({} : ParserSt).amendments, Pa b) := by
    constructor
    · intro b hb
      exact Option.noConfusion hb
    · intro b hb
      exact absurd hb (List.not_mem_nil b)
  have hfold := foldl_step_invariant
    (fun st => (∀ b, st.current = some b → Pc b) ∧ (∀ b ∈ st.amendments, Pa b))
    hstep lines {} hinit
  have hmem : a ∈ (flush_amendment (lines.foldl step_line {})).amendments := ha
  rcases flush_amendment_shape (lines.foldl step_line {}) with ⟨_, hfl⟩ | ⟨a0, hc0, hfa, _⟩
  · rw [hfl] at hmem
    exact hfold.2 a hmem
  · rw [hfa] at hmem
    rcases List.mem_append.mp hmem with hmem | hmem
    · exact hfold.2 a hmem
    · rw [List.mem_singleton] at hmem
      subst hmem
      exact hF a0 _ _ _ _ _ (hfold.1 a0 hc0)

/-! ## Column split as a filter -/

theorem split_spans_left_eq (spans : List Span) :
    (split_spans spans).2.1 =
      (spans.filter (fun s => s.x < COLUMN_SPLIT_X)).map Span.text := by
  induction spans with
  | nil => rfl
  | cons s rest ih =>
      by_cases h : s.x < COLUMN_SPLIT_X <;>
        simp [split_spans, h, ih, List.filter_cons]

theorem split_spans_right_eq (spans : List Span) :
    (split_spans spans).2.2 =
      (spans.filter (fun s => COLUMN_SPLIT_X ≤ s.x)).map Span.text := by
  induction spans with
  | nil => rfl
  | cons s rest ih =>
      by_cases h : s.x < COLUMN_SPLIT_X
      · have h2 : ¬ COLUMN_SPLIT_X ≤ s.x := not_le.mpr h
        simp [split_spans, h, h2, ih, List.filter_cons]
      · have h2 : COLUMN_SPLIT_X ≤ s.x := not_lt.mp h
        simp [split_spans, h, h2, ih, List.filter_cons]

theorem split_spans_length (spans : List Span) :
    (split_spans spans).2.1.length + (split_spans spans).2.2.length = spans.length := by
  induction spans with
  | nil => rfl
  | cons s rest ih =>
      by_cases h : s.x < COLUMN_SPLIT_X <;> simp [split_spans, h] <;> omega

/-! ## Reduction helpers for the AUTHORS branch -/

theorem is_header_line_elim {l : Line} (hh : is_header_line l = true) :
    (∃ idn, amendment_header_num (line_text l) = some idn) ∧
      line_is_bold l = true ∧ 11 ≤ line_size l := by
  unfold is_header_line at hh
  exact ⟨Option.isSome_iff_exists.mp (Bool.and_elim_left (Bool.and_elim_left hh)),
    Bool.and_elim_right (Bool.and_elim_left hh),
    of_decide_eq_true (Bool.and_elim_right hh)⟩

theorem step_rest_authors (st : ParserSt) (l : Line) (text : String) (bold : Bool) (size : Int)
    (hstate : st.state = SegState.AUTHORS) (hmark : is_language_marker text = false) :
    step_rest st l text bold size = authors_step st l text bold size := by
  simp [step_rest, hstate, hmark]

theorem step_line_amendments_mono (st : ParserSt) (l : Line) :
    ∃ t, (step_line st l).amendments = st.amendments ++ t := by
  rcases step_line_shape st l with ⟨hamd, _, _⟩ | ⟨_, _, hamd, _⟩
  · exact ⟨[], by rw [hamd, List.append_nil]⟩
  · rcases flush_amendment_shape st with ⟨_, hfl⟩ | ⟨a, _, hfa, _⟩
    · exact ⟨[], by rw [hamd, hfl, List.append_nil]⟩
    · exact ⟨_, by rw [hamd, hfa]⟩

theorem authors_step_table_mixed (st : ParserSt) (l : Line) (text : String) (bold : Bool) (size : Int)
    (hr : l.spans.filter (fun s => COLUMN_SPLIT_X ≤ s.x) ≠ [])
    (hl : l.spans.filter (fun s => s.x < COLUMN_SPLIT_X) ≠ []) :
    authors_step st l text bold size = { st with state := SegState.TABLE_BODY } := by
  simp only [authors_step]
  rw [if_pos hr, if_neg (by simp [hl])]

theorem authors_step_table_rightonly_label (st : ParserSt) (l : Line) (text : String)
    (bold : Bool) (size : Int)
    (hr : l.spans.filter (fun s => COLUMN_SPLIT_X ≤ s.x) ≠ [])
    (hlab : is_table_column_label text = true) :
    authors_step st l text bold size = { st with state := SegState.TABLE_BODY } := by
  simp only [authors_step]
  rw [if_pos hr, if_neg (by simp [hlab])]

theorem authors_step_table_rightonly_content (st : ParserSt) (l : Line) (text : String)
    (bold : Bool) (size : Int)
    (hr : l.spans.filter (fun s => COLUMN_SPLIT_X ≤ s.x) ≠ [])
    (hl : l.spans.filter (fun s => s.x < COLUMN_SPLIT_X) = [])
    (hlab : is_table_column_label text = false) :
    authors_step st l text bold size =
      add_table_text { st with state := SegState.TABLE_BODY } l := by
  simp only [authors_step]
  rw [if_pos hr, if_pos (by simp [hl, hlab])]

/-! ## Reachability invariant -/

/-- Outside `PREAMBLE` a record is in progress, and while no record is in
progress the per-amendment accumulators are empty. -/
def ReachInv (st : ParserSt) : Prop :=
  (st.state ≠ SegState.PREAMBLE → st.current.isSome = true) ∧
  (st.current = none → st.left_lines = [] ∧ st.right_lines = [] ∧
    st.section_parts = [] ∧ st.author_lines = [])

theorem step_preserves_reachInv (st : ParserSt) (l : Line) (h : ReachInv st) :
    ReachInv (step_line st l) := by
  obtain ⟨h1, h2⟩ := h
  by_cases ht : line_text l = ""
  · rw [step_line_empty st l ht]
    exact ⟨h1, h2⟩
  · by_cases hh : is_header_line l = true
    · obtain ⟨⟨idn, hm⟩, hb, hs⟩ := is_header_line_elim hh
      rw [step_line_of_header st l idn hm hb hs]
      obtain ⟨ws, hcur, _⟩ := start_amendment_current st (line_text l) idn
      constructor
      · intro _
        show ((start_amendment st (line_text l) idn).current).isSome = true
        rw [hcur]
        rfl
      · intro hc
        have hc2 : (start_amendment st (line_text l) idn).current = none := hc
        rw [hcur] at hc2
        exact Option.noConfusion hc2
    · rw [step_line_of_not_header st l ht (Bool.not_eq_true _ ▸ hh)]
      by_cases hp : st.state = SegState.PREAMBLE
      · have he : step_rest st l (line_text l) (line_is_bold l) (line_size l) = st := by
          simp [step_rest, hp]
        rw [he]
        exact ⟨h1, h2⟩
      · by_cases hmk : is_language_marker (line_text l) = true
        · have he : step_rest st l (line_text l) (line_is_bold l) (line_size l) =
              { st with has_language_marker := true, state := SegState.PREAMBLE } := by
            simp [step_rest, hp, hmk]
          rw [he]
          exact ⟨fun hns => absurd rfl hns, fun hc => h2 hc⟩
        · have hsome : st.current.isSome = true := h1 hp
          have hevo : CurrentEvolves st
              (step_rest st l (line_text l) (line_is_bold l) (line_size l)) :=
            (step_rest_shape st l (line_text l) (line_is_bold l) (line_size l)).2.1
          have hrsome :
              ((step_rest st l (line_text l) (line_is_bold l) (line_size l)).current).isSome
                = true := by
            rcases hevo with heq | ⟨a0, w, hc0, heq, _⟩
            · rw [heq]
              exact hsome
            · rw [heq]
              rfl
          refine ⟨fun _ => hrsome, fun hc => ?_⟩
          rw [hc] at hrsome
          exact absurd hrsome (by decide)

theorem reach_inv (lines : List Line) : ReachInv (lines.foldl step_line {}) :=
  foldl_step_invariant ReachInv step_preserves_reachInv lines {}
    ⟨fun hs => absurd rfl hs, fun _ => ⟨rfl, rfl, rfl, rfl⟩⟩

/-! ## Warning multiplicity -/

/-- None of the four flush-time boolean tags occurs in `ws`. -/
def FlushTagFree (ws : List String) : Prop :=
  "missing_author" ∉ ws ∧ "both_columns_empty" ∉ ws ∧
    "no_language_marker" ∉ ws ∧ "footer_text_leaked" ∉ ws

/-- Each of the four flush-time boolean tags occurs at most once in `ws`. -/
def TagsOnce (ws : List String) : Prop :=
  ws.count "missing_author" ≤ 1 ∧ ws.count "both_columns_empty" ≤ 1 ∧
    ws.count "no_language_marker" ≤ 1 ∧ ws.count "footer_text_leaked" ≤ 1

theorem not_mem_append_single {x w : String} {ws : List String}
    (h1 : x ∉ ws) (h2 : w ≠ x) : x ∉ ws ++ [w] := by
  intro hmem
  rcases List.mem_append.mp hmem with h | h
  · exact h1 h
  · exact h2 (List.mem_singleton.mp h).symm

theorem flushTagFree_append {ws : List String} {w : String}
    (h : FlushTagFree ws) (hw : MidTag w) : FlushTagFree (ws ++ [w]) :=
  ⟨not_mem_append_single h.1 hw.1, not_mem_append_single h.2.1 hw.2.1,
    not_mem_append_single h.2.2.1 hw.2.2.1, not_mem_append_single h.2.2.2 hw.2.2.2⟩

theorem flushTagFree_single {w : String} (hw : MidTag w) : FlushTagFree [w] :=
  ⟨fun he => hw.1 (List.mem_singleton.mp he).symm,
    fun he => hw.2.1 (List.mem_singleton.mp he).symm,
    fun he => hw.2.2.1 (List.mem_singleton.mp he).symm,
    fun he => hw.2.2.2 (List.mem_singleton.mp he).symm⟩

theorem count_cond_append (c : Prop) [Decidable c] (ws : List String) (e x : String) :
    (if c then ws ++ [e] else ws).count x ≤ ws.count x + [e].count x := by
  split_ifs
  · exact Nat.le_of_eq (List.count_append x ws [e])
  · exact Nat.le_add_right _ _

/-- The flush-time warning evaluation appends at most the six optional
singletons, in source order. -/
theorem finalize_count_le (a : Amendment) (al sp ll rl : List String) (m : Bool) (x : String) :
    (finalize_amendment a al sp ll rl m).warnings.count x ≤
      a.warnings.count x + ["missing_author"].count x + ["both_columns_empty"].count x +
        ["suspiciously_short_column"].count x + ["suspiciously_short_column"].count x +
        ["no_language_marker"].count x + ["footer_text_leaked"].count x := by
  simp only [finalize_amendment]
  refine le_trans (count_cond_append _ _ _ _) (Nat.add_le_add_right ?_ _)
  refine le_trans (count_cond_append _ _ _ _) (Nat.add_le_add_right ?_ _)
  refine le_trans (count_cond_append _ _ _ _) (Nat.add_le_add_right ?_ _)
  refine le_trans (count_cond_append _ _ _ _) (Nat.add_le_add_right ?_ _)
  refine le_trans (count_cond_append _ _ _ _) (Nat.add_le_add_right ?_ _)
  exact le_trans (count_cond_append _ _ _ _) (Nat.add_le_add_right Nat.le.refl _)

theorem finalize_tags_once (a : Amendment) (al sp ll rl : List String) (m : Bool)
    (h : FlushTagFree a.warnings) :
    TagsOnce (finalize_amendment a al sp ll rl m).warnings := by
  obtain ⟨h1, h2, h3, h4⟩ := h
  have c1 : a.warnings.count "missing_author" = 0 := List.count_eq_zero.mpr h1
  have c2 : a.warnings.count "both_columns_empty" = 0 := List.count_eq_zero.mpr h2
  have c3 : a.warnings.count "no_language_marker" = 0 := List.count_eq_zero.mpr h3
  have c4 : a.warnings.count "footer_text_leaked" = 0 := List.count_eq_zero.mpr h4
  refine ⟨?_, ?_, ?_, ?_⟩
  · have hb := finalize_count_le a al sp ll rl m "missing_author"
    rw [c1] at hb
    exact le_trans hb (by decide)
  · have hb := finalize_count_le a al sp ll rl m "both_columns_empty"
    rw [c2] at hb
    exact le_trans hb (by decide)
  · have hb := finalize_count_le a al sp ll rl m "no_language_marker"
    rw [c3] at hb
    exact le_trans hb (by decide)
  · have hb := finalize_count_le a al sp ll rl m "footer_text_leaked"
    rw [c4] at hb
    exact le_trans hb (by decide)

/-! ## Concrete inputs used by the claim theorems -/

def mkSpan (x : Int) (t : String) (b : Bool) (sz : Int) : Span :=
  { x := x, y := 0, text := t, bold := b, size := sz, page_num := 1 }

def mkLine (y : Int) (spans : List Span) : Line :=
  { y := y, page_num := 1, spans := spans }

/-- The spec's §8 scenario around amendments 7 and 8. -/
def c1Lines : List Line :=
  [ mkLine 10 [mkSpan 71 "Amendment 7" true 12],
    mkLine 20 [mkSpan 71 "Maria Somebody" false 12],
    mkLine 30 [mkSpan 71 "Paragraph 3" true 12],
    mkLine 40 [mkSpan 50 "Deleted." false 10, mkSpan 300 "New text here" false 10],
    mkLine 50 [mkSpan 71 "Or. en" false 12],
    mkLine 60 [mkSpan 71 "Amendment 8" true 12] ]

/-- Two identical header lines: the parser emits two records with equal ids. -/
def c4Lines : List Line :=
  [ mkLine 10 [mkSpan 71 "Amendment 7" true 12],
    mkLine 20 [mkSpan 71 "Amendment 7" true 12] ]

/-- A header numbered 0 followed by one numbered 5. -/
def c7Lines : List Line :=
  [ mkLine 10 [mkSpan 71 "Amendment 0" true 12],
    mkLine 20 [mkSpan 71 "Amendment 5" true 12] ]

/-- Header 5 followed immediately by header 7. -/
def c7bLines : List Line :=
  [ mkLine 10 [mkSpan 71 "Amendment 5" true 12],
    mkLine 20 [mkSpan 71 "Amendment 7" true 12] ]

/-- One amendment whose two columns each capture a two-character text. -/
def c9Lines : List Line :=
  [ mkLine 10 [mkSpan 71 "Amendment 1" true 12],
    mkLine 20 [mkSpan 300 "cd" false 10],
    mkLine 30 [mkSpan 50 "ab" false 10] ]

/-! ## Claim theorems -/

/-- C1, counterexample: on the spec's scenario input the emitted amendment 7
has empty `content` — not `"Deleted."` as the claim demands (the two-fragment
line is the first right-column line seen in `AUTHORS` state and the code
discards such both-column lines as heading rows). -/
theorem c1_counterexample :
    (parse_amendments c1Lines).map Amendment.content = ["", ""] ∧
    ¬ ∃ a ∈ parse_amendments c1Lines, a.content = "Deleted." := by
  decide

/-- C1, amended: on the scenario input the parser emits amendment 7 with
`content = ""` and `amendment = ""` (the both-column body line is discarded
as a column-heading row on the AUTHORS → TABLE_BODY transition), with
section `"Paragraph 3"`, with no `no_language_marker` warning, and a fresh
record for amendment 8. -/
theorem c1_amended_scenario :
    parse_amendments c1Lines =
      [ { id := "Amendment 7", authors := "", sectionRef := "Paragraph 3",
          content := "", amendment := "",
          warnings := ["missing_author", "both_columns_empty"] },
        { id := "Amendment 8", authors := "", sectionRef := "",
          content := "", amendment := "",
          warnings := ["missing_author", "both_columns_empty", "no_language_marker"] } ] := by
  decide

/-- C4, counterexample: two identical bold header lines "Amendment 7" make
the parser emit two records with the same id, so emitted ids are not unique
within one parse. -/
theorem c4_counterexample :
    (parse_amendments c4Lines).map Amendment.id = ["Amendment 7", "Amendment 7"] ∧
    ¬ ((parse_amendments c4Lines).map Amendment.id).Nodup := by
  decide

/-- C7, counterexample: after a recognized header "Amendment 0" (so a previous
header with number P = 0 exists), the header "Amendment 5" starts a record
with no `non_sequential_id` warning at all — the code encodes "no previous
header" as the sentinel 0, so K = 5 ≠ P + 1 = 1 produces nothing. -/
theorem c7_counterexample :
    ((parse_amendments c7Lines).map Amendment.id) = ["Amendment 0", "Amendment 5"] ∧
    ((parse_amendments c7Lines).map Amendment.warnings).getLast? =
      some ["missing_author", "both_columns_empty", "no_language_marker"] := by
  decide

/-- C4, amended: every emitted record's id is the non-empty text of a line on
which the amendment-header pattern matched (the word "amendment" in any letter
case, whitespace, digits); neither uniqueness of ids nor the literal spacing
and capitalization "Amendment <N>" is guaranteed. -/
theorem c4_amended_id_format (lines : List Line) (a : Amendment)
    (ha : a ∈ parse_amendments lines) :
    a.id ≠ "" ∧ (amendment_header_num a.id).isSome = true := by
  refine parse_amendments_invariant
    (fun b => b.id ≠ "" ∧ (amendment_header_num b.id).isSome = true)
    (fun b => b.id ≠ "" ∧ (amendment_header_num b.id).isSome = true)
    ?_ ?_ ?_ lines a ha
  · intro b w hb _
    exact hb
  · intro l ws hhdr _
    have h1 : (amendment_header_num (line_text l)).isSome = true := by
      unfold is_header_line at hhdr
      exact Bool.and_elim_left (Bool.and_elim_left hhdr)
    exact ⟨line_text_ne_empty_of_isSome h1, h1⟩
  · intro b al sp ll rl m hb
    exact hb

def c4WitnessAmendment : Amendment :=
  { id := "Amendment 7", authors := "", sectionRef := "", content := "", amendment := "",
    warnings := ["missing_author", "both_columns_empty", "no_language_marker"] }

theorem c4_witness :
    c4WitnessAmendment.id ≠ "" ∧ (amendment_header_num c4WitnessAmendment.id).isSome = true :=
  c4_amended_id_format c4Lines c4WitnessAmendment (by decide)

/-- C9, counterexample: an amendment whose two columns are both populated but
shorter than three characters receives the warning string
`"suspiciously_short_column"` twice, so its warnings list has two equal
entries and is not an ordered set. -/
theorem c9_counterexample :
    (parse_amendments c9Lines).map Amendment.warnings =
      [["missing_author", "suspiciously_short_column", "suspiciously_short_column",
        "no_language_marker"]] ∧
    ¬ ∀ a ∈ parse_amendments c9Lines, a.warnings.Nodup := by
  decide

/-- C9, amended: the warnings list is not duplicate-free in general
(`suspiciously_short_column` is appended once per short column and
`ambiguous_column_split` once per ambiguous line), but each of the four
flush-time boolean tags — `missing_author`, `both_columns_empty`,
`no_language_marker`, `footer_text_leaked` — occurs at most once in any
emitted amendment's warnings. -/
theorem c9_amended_flush_tags_once (lines : List Line) (a : Amendment)
    (ha : a ∈ parse_amendments lines) :
    a.warnings.count "missing_author" ≤ 1 ∧
    a.warnings.count "both_columns_empty" ≤ 1 ∧
    a.warnings.count "no_language_marker" ≤ 1 ∧
    a.warnings.count "footer_text_leaked" ≤ 1 := by
  refine parse_amendments_invariant (fun b => FlushTagFree b.warnings)
    (fun b => TagsOnce b.warnings) ?_ ?_ ?_ lines a ha
  · intro b w hb hw
    exact flushTagFree_append hb hw
  · intro l ws _ hws
    rcases hws with rfl | ⟨w, rfl, hw⟩
    · exact ⟨List.not_mem_nil _, List.not_mem_nil _, List.not_mem_nil _, List.not_mem_nil _⟩
    · exact flushTagFree_single hw
  · intro b al sp ll rl m hb
    exact finalize_tags_once b al sp ll rl m hb

def c9WitnessAmendment : Amendment :=
  { id := "Amendment 1", authors := "", sectionRef := "", content := "ab", amendment := "cd",
    warnings := ["missing_author", "suspiciously_short_column", "suspiciously_short_column",
      "no_language_marker"] }

theorem c9_witness :
    c9WitnessAmendment.warnings.count "missing_author" ≤ 1 ∧
    c9WitnessAmendment.warnings.count "both_columns_empty" ≤ 1 ∧
    c9WitnessAmendment.warnings.count "no_language_marker" ≤ 1 ∧
    c9WitnessAmendment.warnings.count "footer_text_leaked" ≤ 1 :=
  c9_amended_flush_tags_once c9Lines c9WitnessAmendment (by decide)

theorem start_amendment_nonseq (st : ParserSt) (id_str : String) (id_num : Nat)
    (hP : st.prev_id_num ≠ 0) (hK : id_num ≠ st.prev_id_num + 1) :
    (start_amendment st id_str id_num).current = some {
      id := id_str,
      warnings := ["non_sequential_id: expected " ++ toString (st.prev_id_num + 1) ++
        ", got " ++ toString id_num] } := by
  simp only [start_amendment, flush_amendment_prev]
  split_ifs with h
  · rfl
  · exact absurd (by simp [hK, hP]) h

/-- C7, amended: the warning fires whenever the previously recognized header
number P is non-zero (the code re-uses 0 as the "no previous header" sentinel,
so a recognized header numbered 0 suppresses the check for the next header);
the spec's 5-then-7 scenario yields "non_sequential_id: expected 6, got 7" on
amendment 7. -/
theorem c7_amended_non_sequential (st : ParserSt) (l : Line) (P K : Nat)
    (hhdr : is_header_line l = true)
    (hnum : amendment_header_num (line_text l) = some K)
    (hprev : st.prev_id_num = P) (hP : P ≠ 0) (hK : K ≠ P + 1) :
    (step_line st l).current = some {
      id := line_text l,
      warnings := ["non_sequential_id: expected " ++ toString (P + 1) ++
        ", got " ++ toString K] } ∧
    (∃ a ∈ parse_amendments c7bLines, a.id = "Amendment 7" ∧
      "non_sequential_id: expected 6, got 7" ∈ a.warnings) := by
  obtain ⟨_, hb, hs⟩ := is_header_line_elim hhdr
  constructor
  · rw [step_line_of_header st l K hnum hb hs]
    have hres := start_amendment_nonseq st (line_text l) K
      (by rw [hprev]; exact hP) (by rw [hprev]; exact hK)
    rw [hprev] at hres
    exact hres
  · decide

def c7WitnessSt : ParserSt := { prev_id_num := 5 }

def c7WitnessLine : Line := mkLine 10 [mkSpan 71 "Amendment 7" true 12]

theorem c7_witness :
    (step_line c7WitnessSt c7WitnessLine).current = some {
      id := "Amendment 7",
      warnings := ["non_sequential_id: expected 6, got 7"] } ∧
    (∃ a ∈ parse_amendments c7bLines, a.id = "Amendment 7" ∧
      "non_sequential_id: expected 6, got 7" ∈ a.warnings) := by
  have h := c7_amended_non_sequential c7WitnessSt c7WitnessLine 5 7 (by decide) (by decide)
    rfl (by decide) (by decide)
  exact ⟨h.1.trans (by decide), h.2⟩

/-- C5: in `AUTHORS` state, a line whose text contains "on behalf of"
(case-insensitively) is appended to the author accumulator whether or not the
line is bold, and nothing else changes.  The hypotheses exclude the
higher-priority rules of the machine: the header test, the language marker,
and the right-column transition. -/
theorem c5_on_behalf_of (st : ParserSt) (l : Line)
    (hstate : st.state = SegState.AUTHORS)
    (hhdr : is_header_line l = false)
    (hmark : is_language_marker (line_text l) = false)
    (hright : ∀ s ∈ l.spans, s.x < COLUMN_SPLIT_X)
    (hbehalf : has_substr (pyLower (line_text l)) "on behalf of" = true) :
    step_line st l = { st with author_lines := st.author_lines ++ [line_text l] } := by
  have htext : line_text l ≠ "" := by
    intro he
    rw [he] at hbehalf
    exact absurd hbehalf (by decide)
  rw [step_line_of_not_header st l htext hhdr,
    step_rest_authors st l (line_text l) (line_is_bold l) (line_size l) hstate hmark]
  have hf : l.spans.filter (fun s => COLUMN_SPLIT_X ≤ s.x) = [] :=
    List.filter_eq_nil_iff.mpr (fun s hs => by simpa using not_le.mpr (hright s hs))
  simp [authors_step, hf, hbehalf]

def c5WitnessSt : ParserSt := { state := SegState.AUTHORS }

def c5WitnessLine : Line :=
  mkLine 20 [mkSpan 71 "Maria Soraya on behalf of the XYZ Group" false 10]

theorem c5_witness :
    step_line c5WitnessSt c5WitnessLine =
      { c5WitnessSt with
        author_lines := c5WitnessSt.author_lines ++ [line_text c5WitnessLine] } :=
  c5_on_behalf_of c5WitnessSt c5WitnessLine rfl (by decide) (by decide)
    (by decide) (by decide)

/-- C6: the author-join of `flush_amendment` separates entries with "; "
except after a trailing comma, where the continuation joins with a single
space; in particular a two-line author block whose first line ends with a
comma joins with exactly one space, and the flushed `authors` field is
exactly this join of the accumulated author lines. -/
theorem c6_author_join (acc part l1 l2 : String) (a : Amendment)
    (al sp ll rl : List String) (m : Bool) :
    (acc ≠ "" → strEndsWith acc "," = true → join_authors_step acc part = acc ++ " " ++ part) ∧
    (acc ≠ "" → strEndsWith acc "," = false → join_authors_step acc part = acc ++ "; " ++ part) ∧
    (l1 ≠ "" → strEndsWith l1 "," = true → join_authors [l1, l2] = l1 ++ " " ++ l2) ∧
    (finalize_amendment a al sp ll rl m).authors = join_authors al := by
  refine ⟨?_, ?_, ?_, rfl⟩
  · intro h1 h2
    simp [join_authors_step, h1, h2]
  · intro h1 h2
    simp [join_authors_step, h1, h2]
  · intro h1 h2
    simp [join_authors, join_authors_step, h1, h2]

theorem c6_witness : join_authors ["Garcia,", "Lopez"] = "Garcia," ++ " " ++ "Lopez" :=
  (c6_author_join "x" "y" "Garcia," "Lopez" { id := "Amendment 1" } [] [] [] [] false).2.2.1
    (by decide) (by decide)

/-- C8: the single pass of `add_table_text` sends every span of the line whose
x is strictly below the split threshold, and only those, to the left column,
and every span at or beyond it to the right column, preserving order and
multiplicity (the two parts' lengths sum to the span count), and the joined
non-empty parts are appended to the respective accumulators. -/
theorem c8_column_partition (st : ParserSt) (l : Line) :
    (split_spans l.spans).2.1 =
      (l.spans.filter (fun s => s.x < COLUMN_SPLIT_X)).map Span.text ∧
    (split_spans l.spans).2.2 =
      (l.spans.filter (fun s => COLUMN_SPLIT_X ≤ s.x)).map Span.text ∧
    (split_spans l.spans).2.1.length + (split_spans l.spans).2.2.length = l.spans.length ∧
    (add_table_text st l).left_lines = st.left_lines ++
      (if (split_spans l.spans).2.1 = [] then []
        else [joinSep " " (split_spans l.spans).2.1]) ∧
    (add_table_text st l).right_lines = st.right_lines ++
      (if (split_spans l.spans).2.2 = [] then []
        else [joinSep " " (split_spans l.spans).2.2]) :=
  ⟨split_spans_left_eq l.spans, split_spans_right_eq l.spans, split_spans_length l.spans,
    (add_table_text_lines st l).1, (add_table_text_lines st l).2⟩

/-- C10: whenever the machine is in `AUTHORS` or `TABLE_BODY` state, an
in-progress amendment is present, so the warning append in `add_table_text`
and the author/section/body accumulation never touch a missing record. -/
theorem c10_current_some (lines : List Line)
    (h : (lines.foldl step_line {}).state = SegState.AUTHORS ∨
      (lines.foldl step_line {}).state = SegState.TABLE_BODY) :
    ((lines.foldl step_line {}).current).isSome = true := by
  have hstep : ∀ st l, (st.state ≠ SegState.PREAMBLE → st.current.isSome = true) →
      ((step_line st l).state ≠ SegState.PREAMBLE → (step_line st l).current.isSome = true) := by
    intro st l ih hs
    rcases step_line_shape st l with ⟨_, hevo, himp⟩ | ⟨_, _, _, ws, hc, _⟩
    · have hpre := ih (himp hs)
      rcases hevo with heq | ⟨a0, w, hc0, heq, _⟩
      · rw [heq]
        exact hpre
      · rw [heq]
        rfl
    · rw [hc]
      rfl
  have hfold := foldl_step_invariant
    (fun st => st.state ≠ SegState.PREAMBLE → st.current.isSome = true)
    hstep lines {} (fun hs => absurd rfl hs)
  apply hfold
  rcases h with h | h <;> rw [h] <;> decide

def c10Lines : List Line := [mkLine 10 [mkSpan 71 "Amendment 7" true 12]]

theorem c10_witness : ((c10Lines.foldl step_line {}).current).isSome = true :=
  c10_current_some c10Lines (by decide)

/-- C2: in `AUTHORS` state (for a line not captured by the higher-priority
header and language-marker rules), the first line with a fragment at or
beyond the column split moves the machine to `TABLE_BODY`; if the line also
has a fragment left of the split it is discarded entirely (nothing but the
state changes), otherwise its joined text is appended to the
amendment-column accumulator unless it equals a known column-heading label
case-insensitively, in which case it is discarded. -/
theorem c2_authors_to_table_body (st : ParserSt) (l : Line)
    (hstate : st.state = SegState.AUTHORS)
    (hhdr : is_header_line l = false)
    (hmark : is_language_marker (line_text l) = false)
    (htext : line_text l ≠ "")
    (hright : ∃ s ∈ l.spans, COLUMN_SPLIT_X ≤ s.x) :
    (step_line st l).state = SegState.TABLE_BODY ∧
    ((∃ s ∈ l.spans, s.x < COLUMN_SPLIT_X) →
      step_line st l = { st with state := SegState.TABLE_BODY }) ∧
    ((∀ s ∈ l.spans, COLUMN_SPLIT_X ≤ s.x) →
      (is_table_column_label (line_text l) = true →
        step_line st l = { st with state := SegState.TABLE_BODY }) ∧
      (is_table_column_label (line_text l) = false →
        (step_line st l).right_lines =
          st.right_lines ++ [joinSep " " (l.spans.map Span.text)] ∧
        (step_line st l).left_lines = st.left_lines)) := by
  obtain ⟨s0, hs0, hx0⟩ := hright
  have hstep : step_line st l = authors_step st l (line_text l) (line_is_bold l) (line_size l) := by
    rw [step_line_of_not_header st l htext hhdr,
      step_rest_authors st l (line_text l) (line_is_bold l) (line_size l) hstate hmark]
  have hrf : l.spans.filter (fun s => COLUMN_SPLIT_X ≤ s.x) ≠ [] := by
    intro hnil
    have hmem : s0 ∈ l.spans.filter (fun s => COLUMN_SPLIT_X ≤ s.x) :=
      List.mem_filter.mpr ⟨hs0, by simpa using hx0⟩
    rw [hnil] at hmem
    exact absurd hmem (List.not_mem_nil s0)
  refine ⟨?_, ?_, ?_⟩
  · rw [hstep]
    by_cases hl : l.spans.filter (fun s => s.x < COLUMN_SPLIT_X) = []
    · by_cases hlab : is_table_column_label (line_text l) = true
      · rw [authors_step_table_rightonly_label st l _ _ _ hrf hlab]
      · rw [authors_step_table_rightonly_content st l _ _ _ hrf hl
          (Bool.not_eq_true _ ▸ hlab), add_table_text_state]
    · rw [authors_step_table_mixed st l _ _ _ hrf hl]
  · rintro ⟨s1, hs1, hx1⟩
    have hl : l.spans.filter (fun s => s.x < COLUMN_SPLIT_X) ≠ [] := by
      intro hnil
      have hmem : s1 ∈ l.spans.filter (fun s => s.x < COLUMN_SPLIT_X) :=
        List.mem_filter.mpr ⟨hs1, by simpa using hx1⟩
      rw [hnil] at hmem
      exact absurd hmem (List.not_mem_nil s1)
    rw [hstep, authors_step_table_mixed st l _ _ _ hrf hl]
  · intro hall
    have hl : l.spans.filter (fun s => s.x < COLUMN_SPLIT_X) = [] :=
      List.filter_eq_nil_iff.mpr (fun s hs => by simpa using not_lt.mpr (hall s hs))
    constructor
    · intro hlab
      rw [hstep, authors_step_table_rightonly_label st l _ _ _ hrf hlab]
    · intro hlab
      rw [hstep, authors_step_table_rightonly_content st l _ _ _ hrf hl hlab]
      have h22 : (split_spans l.spans).2.2 = l.spans.map Span.text := by
        rw [split_spans_right_eq,
          List.filter_eq_self.mpr (fun s hs => by simpa using hall s hs)]
      have h21 : (split_spans l.spans).2.1 = [] := by
        rw [split_spans_left_eq, hl]
        rfl
      constructor
      · rw [(add_table_text_lines _ l).2, h22]
        have hne : l.spans.map Span.text ≠ [] := by
          intro h0
          rw [List.map_eq_nil_iff] at h0
          rw [h0] at hs0
          exact absurd hs0 (List.not_mem_nil s0)
        rw [if_neg hne]
      · rw [(add_table_text_lines _ l).1, h21, if_pos rfl, List.append_nil]

def c2WitnessSt : ParserSt :=
  { state := SegState.AUTHORS, current := some { id := "Amendment 1" } }

def c2WitnessLine : Line := mkLine 30 [mkSpan 300 "New text here" false 10]

theorem c2_witness :
    (step_line c2WitnessSt c2WitnessLine).state = SegState.TABLE_BODY ∧
    (step_line c2WitnessSt c2WitnessLine).right_lines = ["New text here"] ∧
    (step_line c2WitnessSt c2WitnessLine).left_lines = [] := by
  have h := c2_authors_to_table_body c2WitnessSt c2WitnessLine rfl (by decide) (by decide)
    (by decide) (by decide)
  have h3 := (h.2.2 (by decide)).2 (by decide)
  exact ⟨h.1, by rw [h3.1]; decide, by rw [h3.2]; decide⟩

/-- C3: a full-text "Amendment <digits>" line that is entirely bold with size
at least the heading threshold is recognized in every reachable machine
state: the previous in-progress amendment (if any) is finalized and appended
to the output, the per-amendment accumulators and the language-marker flag
are reset, a fresh record carrying the header text begins, and the machine
enters `AUTHORS`; moreover the output list only ever grows by appending, so
an already-flushed amendment never receives further content. -/
theorem c3_header_flush_reset (pre : List Line) (l : Line)
    (hhdr : is_header_line l = true) :
    (step_line (pre.foldl step_line {}) l).state = SegState.AUTHORS ∧
    (step_line (pre.foldl step_line {}) l).left_lines = [] ∧
    (step_line (pre.foldl step_line {}) l).right_lines = [] ∧
    (step_line (pre.foldl step_line {}) l).section_parts = [] ∧
    (step_line (pre.foldl step_line {}) l).author_lines = [] ∧
    (step_line (pre.foldl step_line {}) l).has_language_marker = false ∧
    (∃ c, (step_line (pre.foldl step_line {}) l).current = some c ∧
      c.id = line_text l ∧ c.authors = "" ∧ c.sectionRef = "" ∧
      c.content = "" ∧ c.amendment = "") ∧
    ((pre.foldl step_line {}).current = none →
      (step_line (pre.foldl step_line {}) l).amendments =
        (pre.foldl step_line {}).amendments) ∧
    (∀ a, (pre.foldl step_line {}).current = some a →
      (step_line (pre.foldl step_line {}) l).amendments =
        (pre.foldl step_line {}).amendments ++
          [finalize_amendment a (pre.foldl step_line {}).author_lines
            (pre.foldl step_line {}).section_parts (pre.foldl step_line {}).left_lines
            (pre.foldl step_line {}).right_lines
            (pre.foldl step_line {}).has_language_marker]) ∧
    (∀ (st' : ParserSt) (l' : Line), ∃ t,
      (step_line st' l').amendments = st'.amendments ++ t) := by
  obtain ⟨⟨idn, hm⟩, hb, hs⟩ := is_header_line_elim hhdr
  have hreach := reach_inv pre
  rw [step_line_of_header (pre.foldl step_line {}) l idn hm hb hs]
  obtain ⟨ws, hcur, _⟩ :=
    start_amendment_current (pre.foldl step_line {}) (line_text l) idn
  rcases flush_amendment_shape (pre.foldl step_line {}) with ⟨hcn, hfl⟩ |
    ⟨a, hca, hfa, _, _, hfll, hflr, hfls, hfla⟩
  · have hacc := hreach.2 hcn
    refine ⟨rfl, ?_, ?_, ?_, ?_, rfl,
      ⟨{ id := line_text l, warnings := ws }, hcur, rfl, rfl, rfl, rfl, rfl⟩,
      fun _ => ?_, fun a' hca' => ?_, fun st' l' => step_line_amendments_mono st' l'⟩
    · show (flush_amendment (pre.foldl step_line {})).left_lines = []
      rw [hfl]
      exact hacc.1
    · show (flush_amendment (pre.foldl step_line {})).right_lines = []
      rw [hfl]
      exact hacc.2.1
    · show (flush_amendment (pre.foldl step_line {})).section_parts = []
      rw [hfl]
      exact hacc.2.2.1
    · show (flush_amendment (pre.foldl step_line {})).author_lines = []
      rw [hfl]
      exact hacc.2.2.2
    · show (flush_amendment (pre.foldl step_line {})).amendments = _
      rw [hfl]
    · rw [hca'] at hcn
      exact Option.noConfusion hcn
  · refine ⟨rfl, ?_, ?_, ?_, ?_, rfl,
      ⟨{ id := line_text l, warnings := ws }, hcur, rfl, rfl, rfl, rfl, rfl⟩,
      fun hcn => ?_, fun a' hca' => ?_, fun st' l' => step_line_amendments_mono st' l'⟩
    · exact hfll
    · exact hflr
    · exact hfls
    · exact hfla
    · rw [hca] at hcn
      exact Option.noConfusion hcn
    · show (flush_amendment (pre.foldl step_line {})).amendments = _
      rw [hca] at hca'
      injection hca' with h'
      subst h'
      exact hfa

def c3WitnessLine : Line := mkLine 5 [mkSpan 71 "Amendment 3" true 12]

theorem c3_witness :
    (step_line (([] : List Line).foldl step_line {}) c3WitnessLine).state =
      SegState.AUTHORS ∧
    (step_line (([] : List Line).foldl step_line {}) c3WitnessLine).author_lines = [] :=
  ⟨(c3_header_flush_reset [] c3WitnessLine (by decide)).1,
    (c3_header_flush_reset [] c3WitnessLine (by decide)).2.2.2.2.1⟩

end EPParser
